import Mathlib

/-!
Verification of the relstorage client-side cache core against its
natural-language specification.

The development shallowly embeds:

* `SizedLRURingEntry` / `SizedLRU` from `src/relstorage/cache/lru.py`.
  The intrusive C ring that backs `SizedLRU` (`ring.py` and the
  `_FFI_RING` C functions `ring_add`, `ring_del`, `ring_move_to_head`,
  `lru_update_mru`, `ring_move_to_head_from_foreign`) is not part of the
  sources; those pieces are modelled from the specification (spec section 4.1
  on Ring operations and section 4.2 on the update step), as noted on each
  definition.  A ring is a list of entries in MRU-to-LRU order together with
  the stored byte-size counter (`ring_home.frequency` in the C struct) and
  the `over_size` flag maintained by the Python code.
* `_TransactionRangeObjectIndex` construction, modelled from the
  specification (the module `relstorage/cache/mvcc.py` is absent from the
  sources; only its test is present).
* `HistoryPreservingPostgreSQLLoadStore.load_current` and
  `MockObjectMover.load_current` from `src/relstorage/adapters/loadstore.py`
  and `src/src/relstorage/cache/tests/__init__.py`.
* `MockPoller.list_changes` from `src/src/relstorage/cache/tests/__init__.py`.

Byte strings (keys, values, pickle states) are modelled as `List Nat`; the
only property of bytes the claims use is their length.
-/

/-- Largest value of the 32-bit unsigned `frequency` field of a ring node. -/
def U32_MAX : Nat := 4294967295

/-- Modelled from the spec: the width and overflow behavior of the C ring
node's `frequency` counter are in the absent C sources; spec section 4.2 reads
`entry.frequency = saturating_add(entry.frequency, 1)` on a `u32` field. -/
def saturating_add (a b : Nat) : Nat := min (a + b) U32_MAX

/-- One cache entry, `SizedLRURingEntry` of `lru.py`.  The stored field
`len` mirrors the C node's `len` slot, initialised to
`len(key) + len(value)` in `__init__` and reset by `set_value`. -/
structure SizedLRURingEntry where
  key : List Nat
  value : List Nat
  frequency : Nat
  len : Nat
  deriving Repr, DecidableEq

/-- Entry construction for `SizedLRURingEntry.__init__`: the node is created
with `len = len(key) + len(value)` and `frequency = 1` (lru.py lines 64-73). -/
def SizedLRURingEntry.mk_init (key value : List Nat) : SizedLRURingEntry :=
  { key := key, value := value, frequency := 1, len := key.length + value.length }

/-- Embeds `SizedLRURingEntry.set_value` (lru.py lines 85-87): replace the
value and recompute the stored `len` as `len(key) + len(value)`. -/
def SizedLRURingEntry.set_value (e : SizedLRURingEntry) (value : List Nat) :
    SizedLRURingEntry :=
  { e with value := value, len := e.key.length + value.length }

/-- State of one `SizedLRU` ring (lru.py lines 96-170).
`entries` is the ring contents in MRU-to-LRU order; `size` is the stored
byte counter (`self._ring.ring_home.frequency` in the source); `over_size`
is the Python-level flag. -/
structure SizedLRU where
  limit : Nat
  entries : List SizedLRURingEntry
  size : Nat
  over_size : Bool
  deriving Repr, DecidableEq

/-- Embeds `SizedLRU.__init__(limit)`: empty ring, size 0, `over_size`
initially false. -/
def SizedLRU.mk_init (limit : Nat) : SizedLRU :=
  { limit := limit, entries := [], size := 0, over_size := false }

/-- Embeds `SizedLRU.get_LRU` (`self._ring.lru`).  Modelled from the spec:
the ring's `lru()` is in the absent ring sources; spec section 4.1 reads
`lru(): return sentinel.prev (oldest) or null`.  The oldest entry is the last
of the MRU-to-LRU list. -/
def SizedLRU.get_LRU (s : SizedLRU) : Option SizedLRURingEntry :=
  s.entries.getLast?

/-- Embeds `SizedLRU.add_MRU(key, value)` (lru.py lines 128-133): build the
entry, then `self.over_size = self._ring.add(entry)`.  Modelled from the
spec: `Ring.add` is in the absent ring sources; spec section 4.1 reads
`push_front(node): insert after sentinel; update len, size += node.weight.
Returns whether size > max_size`. -/
def SizedLRU.add_MRU (s : SizedLRU) (key value : List Nat) :
    SizedLRU × SizedLRURingEntry :=
  let e := SizedLRURingEntry.mk_init key value
  let size := s.size + e.len
  ({ s with entries := e :: s.entries, size := size,
            over_size := decide (size > s.limit) }, e)

/-- Embeds `SizedLRU.delete(entry)` (lru.py lines 156-158): unlink the entry
(spec section 4.1 `remove(node)`: `len -= 1`, `size -= node.weight`, modelled
from the spec as the ring sources are absent), then
`self.over_size = self.size > self.limit`.  The entry is addressed by its
MRU-to-LRU position; an out-of-range position leaves the ring unchanged
(there is no such entry to pass in). -/
def SizedLRU.delete (s : SizedLRU) (i : Nat) : SizedLRU :=
  match s.entries[i]? with
  | none => s
  | some e =>
    let size := s.size - e.len
    { s with entries := s.entries.eraseIdx i, size := size,
             over_size := decide (size > s.limit) }

/-- Embeds `SizedLRU.on_hit(entry)` (lru.py lines 160-163):
`entry.frequency += 1` then `self.make_MRU(entry)`.  Modelled from the spec:
the frequency store is the C node's `u32` counter and `move_to_head` is in
the absent ring sources; spec section 4.1 reads `move_to_front(node): unlink
and push_front in place (no size change)` and section 4.2 specifies the
saturating increment. -/
def SizedLRU.on_hit (s : SizedLRU) (i : Nat) : SizedLRU :=
  match s.entries[i]? with
  | none => s
  | some e =>
    let e2 := { e with frequency := saturating_add e.frequency 1 }
    { s with entries := e2 :: s.entries.eraseIdx i }

/-- Embeds `SizedLRU.update_MRU(entry, value)` (lru.py lines 149-154):
`old_size = entry.len; entry.set_value(value); new_size = entry.len;
self.over_size = lru_update_mru(ring, node, old_size, new_size)`.
Modelled from the spec: `lru_update_mru` is in the absent C sources; spec
section 4.2 reads `Owning ring size += (new - old). If over cap, set
over_size = true`, and the method's name says the entry becomes MRU. -/
def SizedLRU.update_MRU (s : SizedLRU) (i : Nat) (value : List Nat) : SizedLRU :=
  match s.entries[i]? with
  | none => s
  | some e =>
    let e2 := e.set_value value
    let size := s.size + e2.len - e.len
    { s with entries := e2 :: s.entries.eraseIdx i, size := size,
             over_size := decide (size > s.limit) }

/-- Embeds `SizedLRU.take_ownership_of_entry_MRU(entry)` (lru.py lines
135-146), `s` being `self` (the destination) and the entry living at
position `i` of `src` (its `old_parent`).  The call sets
`self.over_size = ring_move_to_head_from_foreign(old._ring, self._ring, node)`
and then `old.over_size = old.size > old.limit`.  Modelled from the spec:
`ring_move_to_head_from_foreign` is in the absent C sources; spec section 4.1
reads `move_from_foreign(src, dst, node): atomically unlink from src
(adjusting src.size) and push_front to dst (adjusting dst.size).  Returns
whether dst is now over size`.  Result: `(new destination, new source)`. -/
def SizedLRU.take_ownership_of_entry_MRU (s src : SizedLRU) (i : Nat) :
    SizedLRU × SizedLRU :=
  match src.entries[i]? with
  | none => (s, src)
  | some e =>
    let dsize := s.size + e.len
    let ssize := src.size - e.len
    ({ s with entries := e :: s.entries, size := dsize,
              over_size := decide (dsize > s.limit) },
     { src with entries := src.entries.eraseIdx i, size := ssize,
                over_size := decide (ssize > src.limit) })

/-- The operations of claim C1, acting on a family of rings addressed by
index.  `takeOwnership dst src i` with `dst = src` is left as a no-op: the
source only ever moves entries between the distinct eden / probation /
protected rings. -/
inductive LRUOp where
  | addMRU (r : Nat) (key value : List Nat)
  | updateMRU (r i : Nat) (value : List Nat)
  | del (r i : Nat)
  | onHit (r i : Nat)
  | takeOwnership (dst src i : Nat)
  deriving Repr, DecidableEq

/-- Apply one operation to a family of rings. -/
def applyOp (rings : List SizedLRU) : LRUOp → List SizedLRU
  | .addMRU r k v =>
    match rings[r]? with
    | none => rings
    | some s => rings.set r (s.add_MRU k v).1
  | .updateMRU r i v =>
    match rings[r]? with
    | none => rings
    | some s => rings.set r (s.update_MRU i v)
  | .del r i =>
    match rings[r]? with
    | none => rings
    | some s => rings.set r (s.delete i)
  | .onHit r i =>
    match rings[r]? with
    | none => rings
    | some s => rings.set r (s.on_hit i)
  | .takeOwnership d src i =>
    if d = src then rings else
    match rings[d]?, rings[src]? with
    | some dring, some sring =>
      let p := dring.take_ownership_of_entry_MRU sring i
      (rings.set d p.1).set src p.2
    | _, _ => rings

/-- Apply a finite sequence of operations. -/
def applyOps (rings : List SizedLRU) (ops : List LRUOp) : List SizedLRU :=
  ops.foldl applyOp rings

/-- The size invariant of spec section 4.2: the stored ring size equals the
sum of the weights of the entries currently linked in the ring. -/
def sizeInv (s : SizedLRU) : Prop :=
  s.size = (s.entries.map SizedLRURingEntry.len).sum

instance (s : SizedLRU) : Decidable (sizeInv s) := by
  unfold sizeInv; infer_instance

/-! ## Transaction range object index -/

/-- Error kind of spec section 7: the TRI constructor's invariants were
violated. -/
inductive MVCCError where
  | InvalidTidRange
  deriving Repr, DecidableEq

/-- The immutable per-polling-interval index of spec section 3: a visibility
window `(complete_since_tid, highest_visible_tid]` plus `(oid, tid)` data. -/
structure TransactionRangeObjectIndex where
  complete_since_tid : Nat
  highest_visible_tid : Nat
  data : List (Nat × Nat)
  deriving Repr, DecidableEq

/-- Validity of one datum `(oid, t)` against the window:
`complete_since_tid < t` and `t <= highest_visible_tid`. -/
def validDatum (cs hvt : Nat) (p : Nat × Nat) : Bool :=
  decide (cs < p.2) && decide (p.2 ≤ hvt)

/-- Modelled from the spec: `mvcc._TransactionRangeObjectIndex.__init__` is
absent from the sources (only its test `test_mvcc.py` is present).  Spec
sections 3 and 4.5: the constructor validates `complete_since_tid <
highest_visible_tid` and every datum `complete_since_tid < t ≤
highest_visible_tid`, and fails with `InvalidTidRange` when violated
(realised as an `AssertionError` in the test).  Consistent with the test
cases: `(cs=2, hvt=1, [])` fails, `(cs=0, hvt=2, [(1,3)])` fails,
`(cs=0, hvt=2, [(1,0)])` fails, `(cs=0, hvt=2, [(1,1)])` succeeds. -/
def TransactionRangeObjectIndex.make (cs hvt : Nat) (data : List (Nat × Nat)) :
    Except MVCCError TransactionRangeObjectIndex :=
  if decide (cs < hvt) && data.all (validDatum cs hvt) then
    .ok { complete_since_tid := cs, highest_visible_tid := hvt, data := data }
  else
    .error .InvalidTidRange

/-! ## Adapter: load_current and list_changes -/

/-- The two relational tables `load_current` reads: `current_object` rows
`(zoid, tid)` and `object_state` rows `((zoid, tid), state)`, where a `none`
state is a stored NULL pickle (an undone creation). -/
structure ObjectDB where
  current_object : List (Nat × Nat)
  object_state : List ((Nat × Nat) × Option (List Nat))
  deriving Repr, DecidableEq

/-- Result rows of the query of `load_current`:
`SELECT state, tid FROM current_object JOIN object_state USING (zoid, tid)
WHERE zoid = oid`. -/
def ObjectDB.currentRows (db : ObjectDB) (oid : Nat) :
    List (Option (List Nat) × Nat) :=
  (db.current_object.filter (fun r => r.1 == oid)).filterMap
    (fun r => (db.object_state.lookup (r.1, r.2)).map (fun s => (s, r.2)))

/-- Embeds `HistoryPreservingPostgreSQLLoadStore.load_current`
(loadstore.py lines 53-74): if the query returns no row the result is
`(None, None)`; otherwise the single row's `(state, tid)` is returned, the
state staying `None` when the stored pickle is NULL. -/
def load_current (db : ObjectDB) (oid : Nat) : Option (List Nat) × Option Nat :=
  match db.currentRows oid with
  | [] => (none, none)
  | (state, tid) :: _ => (state, some tid)

/-- Embeds `MockObjectMover.load_current` (cache/tests/__init__.py lines
43-47): `self.data.get(oid_int, (None, None))` over
`data: {oid: (state, tid)}`. -/
def mock_load_current (data : List (Nat × (Option (List Nat) × Nat)))
    (oid : Nat) : Option (List Nat) × Option Nat :=
  match data.lookup oid with
  | some (state, tid) => (state, some tid)
  | none => (none, none)

/-- Embeds `MockPoller.list_changes` (cache/tests/__init__.py lines 49-60):
`[item for item in self.changes if item[1] > after_tid and item[1] <= last_tid]`. -/
def list_changes (changes : List (Nat × Nat)) (after_tid last_tid : Nat) :
    List (Nat × Nat) :=
  changes.filter (fun item => decide (after_tid < item.2) && decide (item.2 ≤ last_tid))

/-! ## Helper lemmas -/

theorem sum_map_eraseIdx {α : Type} (f : α → Nat) :
    ∀ (l : List α) (i : Nat) (e : α), l[i]? = some e →
      (l.map f).sum = f e + ((l.eraseIdx i).map f).sum := by
  intro l
  induction l with
  | nil => intro i e h; simp at h
  | cons a as ih =>
    intro i e h
    cases i with
    | zero =>
      simp only [List.getElem?_cons_zero, Option.some.injEq] at h
      subst h
      simp [List.eraseIdx]
    | succ n =>
      simp only [List.getElem?_cons_succ] at h
      simp only [List.eraseIdx, List.map_cons, List.sum_cons, ih n e h]
      omega

theorem len_in_sum {α : Type} (f : α → Nat) (l : List α) (i : Nat) (e : α)
    (h : l[i]? = some e) : f e ≤ (l.map f).sum := by
  rw [sum_map_eraseIdx f l i e h]; omega

theorem sizeInv_add_MRU (s : SizedLRU) (k v : List Nat) (h : sizeInv s) :
    sizeInv (s.add_MRU k v).1 := by
  unfold sizeInv SizedLRU.add_MRU at *
  simp only [List.map_cons, List.sum_cons]
  omega

theorem sizeInv_delete (s : SizedLRU) (i : Nat) (h : sizeInv s) :
    sizeInv (s.delete i) := by
  unfold sizeInv SizedLRU.delete at *
  cases he : s.entries[i]? with
  | none => simpa using h
  | some e =>
    have := sum_map_eraseIdx SizedLRURingEntry.len s.entries i e he
    simp only []
    omega

theorem sizeInv_on_hit (s : SizedLRU) (i : Nat) (h : sizeInv s) :
    sizeInv (s.on_hit i) := by
  unfold sizeInv SizedLRU.on_hit at *
  cases he : s.entries[i]? with
  | none => simpa using h
  | some e =>
    have := sum_map_eraseIdx SizedLRURingEntry.len s.entries i e he
    simp only [List.map_cons, List.sum_cons]
    have hlen : SizedLRURingEntry.len
        { e with frequency := saturating_add e.frequency 1 } =
        SizedLRURingEntry.len e := rfl
    omega

theorem sizeInv_update_MRU (s : SizedLRU) (i : Nat) (v : List Nat)
    (h : sizeInv s) : sizeInv (s.update_MRU i v) := by
  unfold sizeInv SizedLRU.update_MRU at *
  cases he : s.entries[i]? with
  | none => simpa using h
  | some e =>
    have := sum_map_eraseIdx SizedLRURingEntry.len s.entries i e he
    simp only [List.map_cons, List.sum_cons]
    omega

theorem sizeInv_take_ownership (d src : SizedLRU) (i : Nat)
    (hd : sizeInv d) (hs : sizeInv src) :
    sizeInv (d.take_ownership_of_entry_MRU src i).1 ∧
    sizeInv (d.take_ownership_of_entry_MRU src i).2 := by
  unfold sizeInv SizedLRU.take_ownership_of_entry_MRU at *
  cases he : src.entries[i]? with
  | none => simp only []; exact ⟨hd, hs⟩
  | some e =>
    have := sum_map_eraseIdx SizedLRURingEntry.len src.entries i e he
    constructor
    · simp only [List.map_cons, List.sum_cons]; omega
    · simp only []; omega

theorem sizeInv_applyOp (rings : List SizedLRU) (op : LRUOp)
    (h : ∀ s ∈ rings, sizeInv s) : ∀ s ∈ applyOp rings op, sizeInv s := by
  cases op with
  | addMRU r k v =>
    simp only [applyOp]
    cases hr : rings[r]? with
    | none => exact h
    | some s0 =>
      intro s hs
      rcases List.mem_or_eq_of_mem_set hs with h1 | h1
      · exact h s h1
      · subst h1; exact sizeInv_add_MRU s0 k v (h s0 (List.getElem?_mem hr))
  | updateMRU r i v =>
    simp only [applyOp]
    cases hr : rings[r]? with
    | none => exact h
    | some s0 =>
      intro s hs
      rcases List.mem_or_eq_of_mem_set hs with h1 | h1
      · exact h s h1
      · subst h1; exact sizeInv_update_MRU s0 i v (h s0 (List.getElem?_mem hr))
  | del r i =>
    simp only [applyOp]
    cases hr : rings[r]? with
    | none => exact h
    | some s0 =>
      intro s hs
      rcases List.mem_or_eq_of_mem_set hs with h1 | h1
      · exact h s h1
      · subst h1; exact sizeInv_delete s0 i (h s0 (List.getElem?_mem hr))
  | onHit r i =>
    simp only [applyOp]
    cases hr : rings[r]? with
    | none => exact h
    | some s0 =>
      intro s hs
      rcases List.mem_or_eq_of_mem_set hs with h1 | h1
      · exact h s h1
      · subst h1; exact sizeInv_on_hit s0 i (h s0 (List.getElem?_mem hr))
  | takeOwnership d src i =>
    simp only [applyOp]
    by_cases hds : d = src
    · simp only [hds, if_pos rfl]; exact h
    · simp only [if_neg hds]
      cases hd : rings[d]? with
      | none => exact h
      | some dring =>
        cases hs2 : rings[src]? with
        | none => exact h
        | some sring =>
          intro s hs
          have hpair := sizeInv_take_ownership dring sring i
            (h dring (List.getElem?_mem hd)) (h sring (List.getElem?_mem hs2))
          rcases List.mem_or_eq_of_mem_set hs with h1 | h1
          · rcases List.mem_or_eq_of_mem_set h1 with h2 | h2
            · exact h s h2
            · subst h2; exact hpair.1
          · subst h1; exact hpair.2

theorem sizeInv_applyOps (rings : List SizedLRU) (ops : List LRUOp)
    (h : ∀ s ∈ rings, sizeInv s) : ∀ s ∈ applyOps rings ops, sizeInv s := by
  induction ops generalizing rings with
  | nil => exact h
  | cons op rest ih =>
    exact ih (applyOp rings op) (sizeInv_applyOp rings op h)

/-! ## Claim theorems -/

/-- C1: for every `SizedLRU` ring family and every finite sequence of
`add_MRU`, `update_MRU`, `delete`, `on_hit` and `take_ownership_of_entry_MRU`
operations, after each operation every ring's stored size equals the sum of
the weights (`len(key) + len(value)`) of the entries currently linked in
it.  (The statement quantifies over all operation sequences, so it covers
every intermediate state of any run.) -/
theorem c1_ring_size_invariant (rings : List SizedLRU) (ops : List LRUOp)
    (h : ∀ s ∈ rings, sizeInv s) :
    ∀ s ∈ applyOps rings ops, sizeInv s :=
  sizeInv_applyOps rings ops h

/-- Witness for C1 on two concrete rings and a six-operation run that
exercises every operation kind. -/
theorem c1_ring_size_invariant_witness :
    (∀ s ∈ [SizedLRU.mk_init 100, SizedLRU.mk_init 10], sizeInv s) ∧
    (∀ s ∈ applyOps [SizedLRU.mk_init 100, SizedLRU.mk_init 10]
        [LRUOp.addMRU 0 [1, 2] [3, 4, 5], LRUOp.onHit 0 0,
         LRUOp.addMRU 0 [9] [8], LRUOp.takeOwnership 1 0 1,
         LRUOp.updateMRU 1 0 [7, 7, 7, 7], LRUOp.del 0 0], sizeInv s) :=
  ⟨by decide, c1_ring_size_invariant _ _ (by decide)⟩

/-- C3: `on_hit` on an entry of the ring replaces its frequency with the
saturating increment (which never falls below the old value and is exactly
`+1` below the `u32` ceiling) and moves the entry to the MRU position; the
ring's size is untouched. -/
theorem c3_on_hit_spec (s : SizedLRU) (i : Nat) (e : SizedLRURingEntry)
    (h : s.entries[i]? = some e) (hf : e.frequency ≤ U32_MAX) :
    (s.on_hit i).entries.head? =
      some { e with frequency := saturating_add e.frequency 1 } ∧
    e.frequency ≤ saturating_add e.frequency 1 ∧
    (e.frequency < U32_MAX → saturating_add e.frequency 1 = e.frequency + 1) ∧
    (s.on_hit i).entries.tail = s.entries.eraseIdx i ∧
    (s.on_hit i).size = s.size := by
  unfold SizedLRU.on_hit
  rw [h]
  refine ⟨rfl, ?_, ?_, rfl, rfl⟩
  · unfold saturating_add U32_MAX at *; omega
  · intro hlt; unfold saturating_add U32_MAX at *; omega

/-- Witness for C3 on a one-entry ring. -/
theorem c3_on_hit_spec_witness :
    ((((SizedLRU.mk_init 10).add_MRU [1] [2]).1.on_hit 0).entries.head? =
      some { key := [1], value := [2],
             frequency := saturating_add 1 1, len := 2 }) ∧
    ((((SizedLRU.mk_init 10).add_MRU [1] [2]).1.on_hit 0).size =
      ((SizedLRU.mk_init 10).add_MRU [1] [2]).1.size) := by
  have h := c3_on_hit_spec ((SizedLRU.mk_init 10).add_MRU [1] [2]).1 0
    (SizedLRURingEntry.mk_init [1] [2]) (by decide) (by decide)
  exact ⟨h.1, h.2.2.2.2⟩

/-- C4: `add_MRU key value` inserts the freshly built entry at the MRU
(front) position of the ring, and the new entry carries that key and value
with frequency exactly 1. -/
theorem c4_add_MRU_spec (s : SizedLRU) (k v : List Nat) :
    (s.add_MRU k v).1.entries.head? = some (s.add_MRU k v).2 ∧
    (s.add_MRU k v).2.frequency = 1 ∧
    (s.add_MRU k v).2.key = k ∧
    (s.add_MRU k v).2.value = v ∧
    (s.add_MRU k v).1.entries = (s.add_MRU k v).2 :: s.entries := by
  unfold SizedLRU.add_MRU SizedLRURingEntry.mk_init
  exact ⟨rfl, rfl, rfl, rfl, rfl⟩

/-- C5: moving an entry from a source ring to a destination ring via
`take_ownership_of_entry_MRU` adds the entry's weight to the destination's
size, subtracts it from the source's size (keeping the sum of the two sizes
unchanged), places the entry at the destination's front, and records in the
destination's `over_size` flag whether the destination is now over its
limit. -/
theorem c5_take_ownership_sizes (d src : SizedLRU) (i : Nat)
    (e : SizedLRURingEntry) (h : src.entries[i]? = some e)
    (hw : e.len ≤ src.size) :
    (d.take_ownership_of_entry_MRU src i).1.size = d.size + e.len ∧
    (d.take_ownership_of_entry_MRU src i).2.size = src.size - e.len ∧
    (d.take_ownership_of_entry_MRU src i).1.size +
      (d.take_ownership_of_entry_MRU src i).2.size = d.size + src.size ∧
    (d.take_ownership_of_entry_MRU src i).1.entries.head? = some e ∧
    (d.take_ownership_of_entry_MRU src i).1.limit = d.limit ∧
    (d.take_ownership_of_entry_MRU src i).1.over_size =
      decide ((d.take_ownership_of_entry_MRU src i).1.size > d.limit) := by
  unfold SizedLRU.take_ownership_of_entry_MRU
  rw [h]
  refine ⟨rfl, rfl, ?_, rfl, rfl, rfl⟩
  show d.size + e.len + (src.size - e.len) = d.size + src.size
  omega

/-- Witness for C5: move the single entry of a size-3 ring into a ring
holding size 2 already. -/
theorem c5_take_ownership_sizes_witness :
    ((((SizedLRU.mk_init 4).add_MRU [0] [1]).1.take_ownership_of_entry_MRU
        ((SizedLRU.mk_init 5).add_MRU [2] [3, 4]).1 0).1.size = 2 + 3) ∧
    ((((SizedLRU.mk_init 4).add_MRU [0] [1]).1.take_ownership_of_entry_MRU
        ((SizedLRU.mk_init 5).add_MRU [2] [3, 4]).1 0).2.size = 3 - 3) := by
  have h := c5_take_ownership_sizes ((SizedLRU.mk_init 4).add_MRU [0] [1]).1
    ((SizedLRU.mk_init 5).add_MRU [2] [3, 4]).1 0
    (SizedLRURingEntry.mk_init [2] [3, 4]) (by decide) (by decide)
  exact ⟨h.1, h.2.1⟩

/-- C6: `update_MRU` replaces the entry's value, setting its stored weight
to `len(key) + len(new_value)`, changes the ring's size by exactly the
difference of new and old weight, and leaves every other entry of the ring
untouched. -/
theorem c6_update_MRU_spec (s : SizedLRU) (i : Nat) (v : List Nat)
    (e : SizedLRURingEntry) (h : s.entries[i]? = some e)
    (hw : e.len ≤ s.size) :
    (s.update_MRU i v).entries = e.set_value v :: s.entries.eraseIdx i ∧
    (e.set_value v).len = e.key.length + v.length ∧
    (e.set_value v).key = e.key ∧
    (e.set_value v).value = v ∧
    (s.update_MRU i v).size + e.len = s.size + (e.set_value v).len := by
  unfold SizedLRU.update_MRU
  rw [h]
  refine ⟨rfl, rfl, rfl, rfl, ?_⟩
  simp only []
  omega

/-- Witness for C6: shrink the value of the sole entry of a ring. -/
theorem c6_update_MRU_spec_witness :
    ((((SizedLRU.mk_init 9).add_MRU [1] [2, 3, 4]).1.update_MRU 0 [5]).entries =
      (SizedLRURingEntry.mk_init [1] [2, 3, 4]).set_value [5] :: []) ∧
    ((((SizedLRU.mk_init 9).add_MRU [1] [2, 3, 4]).1.update_MRU 0 [5]).size + 4 =
      4 + ((SizedLRURingEntry.mk_init [1] [2, 3, 4]).set_value [5]).len) := by
  have h := c6_update_MRU_spec ((SizedLRU.mk_init 9).add_MRU [1] [2, 3, 4]).1 0 [5]
    (SizedLRURingEntry.mk_init [1] [2, 3, 4]) (by decide) (by decide)
  exact ⟨h.1, h.2.2.2.2⟩

/-- C9: `get_LRU` of a freshly initialised (empty) ring returns `none`, and
every ring operation applied to the empty ring is well defined: the
modification operations return the ring unchanged (there is no entry to act
on) and `add_MRU` produces the one-entry ring. -/
theorem c9_empty_ring_total (l i : Nat) (v k : List Nat) (dst : SizedLRU) :
    (SizedLRU.mk_init l).get_LRU = none ∧
    (SizedLRU.mk_init l).on_hit i = SizedLRU.mk_init l ∧
    (SizedLRU.mk_init l).delete i = SizedLRU.mk_init l ∧
    (SizedLRU.mk_init l).update_MRU i v = SizedLRU.mk_init l ∧
    dst.take_ownership_of_entry_MRU (SizedLRU.mk_init l) i =
      (dst, SizedLRU.mk_init l) ∧
    ((SizedLRU.mk_init l).add_MRU k v).1.entries =
      [SizedLRURingEntry.mk_init k v] := by
  refine ⟨rfl, ?_, ?_, ?_, ?_, rfl⟩ <;>
    simp [SizedLRU.mk_init, SizedLRU.on_hit, SizedLRU.delete,
          SizedLRU.update_MRU, SizedLRU.take_ownership_of_entry_MRU]

/-- C10: `take_ownership_of_entry_MRU` moves the entry itself: the record
placed at the destination's front is the very entry (same key, value and
frequency — a move is not a hit), the destination keeps its old entries
behind it, and the source merely loses the entry. -/
theorem c10_take_ownership_preserves_entry (d src : SizedLRU) (i : Nat)
    (e : SizedLRURingEntry) (h : src.entries[i]? = some e) :
    (d.take_ownership_of_entry_MRU src i).1.entries = e :: d.entries ∧
    (d.take_ownership_of_entry_MRU src i).2.entries = src.entries.eraseIdx i ∧
    ((d.take_ownership_of_entry_MRU src i).1.entries.head?.map
      SizedLRURingEntry.frequency) = some e.frequency ∧
    ((d.take_ownership_of_entry_MRU src i).1.entries.head?.map
      SizedLRURingEntry.key) = some e.key ∧
    ((d.take_ownership_of_entry_MRU src i).1.entries.head?.map
      SizedLRURingEntry.value) = some e.value ∧
    (d.take_ownership_of_entry_MRU src i).1.limit = d.limit ∧
    (d.take_ownership_of_entry_MRU src i).2.limit = src.limit := by
  unfold SizedLRU.take_ownership_of_entry_MRU
  rw [h]
  exact ⟨rfl, rfl, rfl, rfl, rfl, rfl, rfl⟩

/-- Witness for C10: the moved entry keeps frequency 1. -/
theorem c10_take_ownership_preserves_entry_witness :
    ((((SizedLRU.mk_init 4).add_MRU [0] [1]).1.take_ownership_of_entry_MRU
        ((SizedLRU.mk_init 5).add_MRU [2] [3, 4]).1 0).1.entries.head?.map
      SizedLRURingEntry.frequency) = some 1 := by
  have h := c10_take_ownership_preserves_entry
    ((SizedLRU.mk_init 4).add_MRU [0] [1]).1
    ((SizedLRU.mk_init 5).add_MRU [2] [3, 4]).1 0
    (SizedLRURingEntry.mk_init [2] [3, 4]) (by decide)
  exact h.2.2.1

/-- C2: the `_TransactionRangeObjectIndex` constructor succeeds exactly when
`complete_since_tid < highest_visible_tid` and every datum `(oid, t)` has
`complete_since_tid < t ≤ highest_visible_tid`; when the condition is
violated it fails with `InvalidTidRange` and produces no index. -/
theorem c2_tri_make_iff (cs hvt : Nat) (data : List (Nat × Nat)) :
    ((∃ tri, TransactionRangeObjectIndex.make cs hvt data = .ok tri) ↔
      (cs < hvt ∧ ∀ p ∈ data, cs < p.2 ∧ p.2 ≤ hvt)) ∧
    (¬(cs < hvt ∧ ∀ p ∈ data, cs < p.2 ∧ p.2 ≤ hvt) →
      TransactionRangeObjectIndex.make cs hvt data =
        .error MVCCError.InvalidTidRange) := by
  have hiff : (decide (cs < hvt) && data.all (validDatum cs hvt)) = true ↔
      (cs < hvt ∧ ∀ p ∈ data, cs < p.2 ∧ p.2 ≤ hvt) := by
    simp [List.all_eq_true, validDatum]
  unfold TransactionRangeObjectIndex.make
  by_cases hb : (decide (cs < hvt) && data.all (validDatum cs hvt)) = true
  · rw [if_pos hb]
    exact ⟨⟨fun _ => hiff.mp hb, fun _ => ⟨_, rfl⟩⟩,
           fun hn => absurd (hiff.mp hb) hn⟩
  · rw [if_neg hb]
    refine ⟨⟨fun hex => ?_, fun hc => absurd (hiff.mpr hc) hb⟩, fun _ => rfl⟩
    obtain ⟨tri, htri⟩ := hex
    exact Except.noConfusion htri

/-- Witness for C2, mirroring the inputs of
`TestTransactionRangeObjectIndex`: `(cs=2, hvt=1)` is rejected with
`InvalidTidRange`; `(cs=0, hvt=2, data=[(1, 1)])` is accepted. -/
theorem c2_tri_make_iff_witness :
    TransactionRangeObjectIndex.make 2 1 [] =
      .error MVCCError.InvalidTidRange ∧
    (∃ tri, TransactionRangeObjectIndex.make 0 2 [(1, 1)] = .ok tri) :=
  ⟨(c2_tri_make_iff 2 1 []).2 (by decide),
   (c2_tri_make_iff 0 2 [(1, 1)]).1.mpr (by decide)⟩

/-- C7: `load_current` returns `(none, none)` (rather than failing) whenever
the oid has no row in `current_object`, and otherwise returns the row's
`(state, tid)` where the state may itself be `none` (an undone creation);
the in-tree mock mover behaves the same way on its `{oid: (state, tid)}`
data. -/
theorem c7_load_current_spec (db : ObjectDB) (oid : Nat)
    (data : List (Nat × (Option (List Nat) × Nat))) :
    ((∀ r ∈ db.current_object, r.1 ≠ oid) →
      load_current db oid = (none, none)) ∧
    (∀ s t rest, db.currentRows oid = (s, t) :: rest →
      load_current db oid = (s, some t)) ∧
    (data.lookup oid = none → mock_load_current data oid = (none, none)) ∧
    (∀ s t, data.lookup oid = some (s, t) →
      mock_load_current data oid = (s, some t)) := by
  refine ⟨fun hno => ?_, fun s t rest hrows => ?_, fun hl => ?_,
          fun s t hl => ?_⟩
  · have hfil : db.current_object.filter (fun r => r.1 == oid) = [] := by
      rw [List.filter_eq_nil_iff]
      intro r hr
      simpa using hno r hr
    unfold load_current ObjectDB.currentRows
    rw [hfil]
    rfl
  · unfold load_current
    rw [hrows]
  · unfold mock_load_current
    rw [hl]
  · unfold mock_load_current
    rw [hl]

/-- Witness for C7: a database whose only current object is oid 2 yields
`(none, none)` for oid 1, and the mock mover returns a stored tombstone
state for oid 1. -/
theorem c7_load_current_spec_witness :
    load_current
      { current_object := [(2, 5)],
        object_state := [((2, 5), some [9])] } 1 = (none, none) ∧
    mock_load_current [(1, (none, 7))] 1 = (none, some 7) :=
  ⟨(c7_load_current_spec
      { current_object := [(2, 5)], object_state := [((2, 5), some [9])] }
      1 []).1 (by decide),
   (c7_load_current_spec
      { current_object := [], object_state := [] }
      1 [(1, (none, 7))]).2.2.2 none 7 (by decide)⟩

/-- C8: `list_changes` returns exactly the held changes whose tid lies in
the half-open interval `(after_tid, last_tid]`: an item is in the result
precisely when it is a held change satisfying
`after_tid < tid ≤ last_tid`. -/
theorem c8_list_changes_mem (changes : List (Nat × Nat))
    (after_tid last_tid : Nat) (p : Nat × Nat) :
    p ∈ list_changes changes after_tid last_tid ↔
      p ∈ changes ∧ after_tid < p.2 ∧ p.2 ≤ last_tid := by
  simp [list_changes, List.mem_filter, and_assoc]
